import Mathlib

/-! Verification of the MVCC transaction engine in `src/mvcc.c`.

The C program is shallowly embedded: the global mutable state (key store,
commit-timestamp counter, transaction-id counter, wait-for graph, transaction
table) becomes an explicit `MvccState` record threaded through the operations,
heap-allocated `Transaction` objects become explicit `Transaction` values, and
the linked version chains become lists (newest first, as in the C code, where
new versions are prepended at the head).  C `int` counters and ids only ever
hold non-negative values in this program, so they are modelled as `Nat`.
`strncpy` truncation of key names (to `MAX_KEYNAME - 1` characters) and of
buffered values (to 127 characters) is modelled with `strncpy_take`.

The one blocking construct, the retry loop in `acquire_key_lock`, is modelled
by a single loop iteration returning a three-way outcome: in a sequential
semantics no other thread can change the lock owner between iterations, so
every later iteration of the C loop behaves identically to the first; the
`blocked` outcome therefore corresponds to the C loop never returning, and the
operations built on top of it return `Option` results with `none` for that
(diverging) case.
-/

/-- Constant `MAX_KEYS` from mvcc.c. -/
def MAX_KEYS : Nat := 64

/-- Constant `MAX_KEYNAME` from mvcc.c. -/
def MAX_KEYNAME : Nat := 32

/-- Constant `MAX_TRANSACTIONS` from mvcc.c. -/
def MAX_TRANSACTIONS : Nat := 128

/-- Constant `MAX_READSET` from mvcc.c (bounds both the read set and the write set). -/
def MAX_READSET : Nat := 64

/-- The C `struct Version`: one entry of a key's version chain.  `next` pointers
become list structure. -/
structure Version where
  commit_ts : Nat
  tx_owner : Nat
  value : String
deriving DecidableEq, Repr

/-- The C `struct Key`: a named version chain (newest first) plus the lock owner
(0 = unlocked, as in the C code). -/
structure Key where
  name : String
  versions : List Version
  lock_owner : Nat
deriving DecidableEq, Repr

/-- The C enum `tx_state_t`. -/
inductive TxState where
  | active
  | aborted
  | committed
deriving DecidableEq, Repr

/-- The C `struct Transaction`.  The fixed-size read/write-set arrays with their
counters become lists whose length is bounded by `MAX_READSET` at record
time. -/
structure Transaction where
  id : Nat
  start_ts : Nat
  state : TxState
  read_set : List String
  write_set : List (String × String)
deriving DecidableEq, Repr

/-- The global mutable state of mvcc.c: `store`/`store_count`,
`global_commit_ts`, `global_tx_seq`, the `wait_for` adjacency matrix
(modelled as an edge list, membership giving the matrix entry), and the
`tx_table` (modelled as the list of registered transaction ids). -/
structure MvccState where
  store : List Key
  global_commit_ts : Nat
  global_tx_seq : Nat
  wait_for : List (Nat × Nat)
  tx_table : List Nat
deriving DecidableEq, Repr

/-- Model of `strncpy` into a buffer of `n + 1` bytes: keep the first `n` characters.
(Characters stand in for bytes; the demo's names are ASCII, where the two
coincide.) -/
def strncpy_take (s : String) (n : Nat) : String := ⟨s.data.take n⟩

/-- Function `get_key` from mvcc.c: linear scan for the first key with the given name. -/
def get_key : List Key → String → Option Key
  | [], _ => none
  | k :: rest, keyname => if k.name = keyname then some k else get_key rest keyname

/-- Update the first key with the given name in place (the C code mutates the
key through the pointer returned by `get_key`). -/
def set_key_f : List Key → String → (Key → Key) → List Key
  | [], _, _ => []
  | k :: rest, n, f => if k.name = n then f k :: rest else k :: set_key_f rest n f

/-- Function `create_key` from mvcc.c: fails (returns `NULL`) when the store is full, otherwise
appends a fresh key with one committed version at `commit_ts = 1`. -/
def create_key (store : List Key) (keyname initial : String) : Option (List Key) :=
  if MAX_KEYS ≤ store.length then none
  else some (store ++ [{ name := strncpy_take keyname (MAX_KEYNAME - 1),
                         versions := [{ commit_ts := 1, tx_owner := 0, value := initial }],
                         lock_owner := 0 }])

/-- Function `add_wait_edge` from mvcc.c: guarded insertion into the wait-for matrix. -/
def add_wait_edge (wf : List (Nat × Nat)) (a b : Nat) : List (Nat × Nat) :=
  if a = 0 ∨ b = 0 ∨ MAX_TRANSACTIONS < a ∨ MAX_TRANSACTIONS < b then wf
  else (a, b) :: wf

/-- Function `remove_wait_edges_of` from mvcc.c: clears row and column `a` of the matrix. -/
def remove_wait_edges_of (wf : List (Nat × Nat)) (a : Nat) : List (Nat × Nat) :=
  if a = 0 then wf
  else wf.filter (fun e => decide (¬(e.1 = a ∨ e.2 = a)))

/-- Function `mvcc_read` from mvcc.c: walk the chain newest-to-oldest and return the first version
that is either committed at or before the reader's snapshot, or the reader's
own uncommitted write. -/
def mvcc_read (tx : Transaction) : List Version → Option String
  | [] => none
  | v :: rest =>
    if 0 < v.commit_ts ∧ v.commit_ts ≤ tx.start_ts then some v.value
    else if v.commit_ts = 0 ∧ v.tx_owner = tx.id then some v.value
    else mvcc_read tx rest

/-- The visibility test of the specification: a version is visible to `tx`
when it is a committed version with `commit_ts ≤ tx.start_ts`, or `tx`'s own
uncommitted write. -/
def visible_to (tx : Transaction) (v : Version) : Prop :=
  (0 < v.commit_ts ∧ v.commit_ts ≤ tx.start_ts) ∨ (v.commit_ts = 0 ∧ v.tx_owner = tx.id)

instance (tx : Transaction) (v : Version) : Decidable (visible_to tx v) := by
  unfold visible_to; infer_instance

/-- Function `tx_begin` from mvcc.c: allocate the next transaction id, snapshot the commit counter,
register the transaction. -/
def tx_begin (s : MvccState) : MvccState × Transaction :=
  let id := s.global_tx_seq
  ({ s with global_tx_seq := id + 1, tx_table := s.tx_table ++ [id] },
   { id := id, start_ts := s.global_commit_ts, state := .active,
     read_set := [], write_set := [] })

/-- Function `record_read` from mvcc.c: append to the read set while below capacity (names are
truncated by `strncpy`). -/
def record_read (tx : Transaction) (keyname : String) : Transaction :=
  if tx.read_set.length < MAX_READSET then
    { tx with read_set := tx.read_set ++ [strncpy_take keyname (MAX_KEYNAME - 1)] }
  else tx

/-- Function `record_write_buffer` from mvcc.c: append to the write set while below capacity. -/
def record_write_buffer (tx : Transaction) (keyname v : String) : Transaction :=
  if tx.write_set.length < MAX_READSET then
    { tx with write_set := tx.write_set ++ [(strncpy_take keyname (MAX_KEYNAME - 1), strncpy_take v 127)] }
  else tx

/-! The wait-for graph and the deadlock detector.

`dfs_cycle` in the C code recurses on unvisited wait-for successors while
marking the recursion stack; since `visited` only ever grows and the function
recurses only into unvisited nodes, its recursion depth is bounded by the
number of nodes, so the embedding uses a fuel parameter and the top-level
entry points supply `MAX_TRANSACTIONS + 1` fuel, which is always sufficient
(proved below through the `unvisitedCount` bound).  The wait-for matrix is
abstracted as `g : Nat → Nat → Bool` and the `tx_table` occupancy as
`reg : Nat → Bool`. -/

mutual

/-- Function `dfs_cycle` from mvcc.c: mark `node` visited and on the stack, then scan
its possible successors `1 .. MAX_TRANSACTIONS`. -/
def dfsCycle (g : Nat → Nat → Bool) : Nat → Nat → Finset Nat → List Nat → Bool × Finset Nat
  | 0, _, visited, _ => (false, visited)
  | fuel + 1, node, visited, stk =>
    dfsScan g fuel node (insert node visited) (node :: stk) (List.range' 1 MAX_TRANSACTIONS)
termination_by fuel _ _ _ => (fuel, 0)

/-- The inner `for (j = 1; j <= MAX_TRANSACTIONS; j++)` loop of `dfs_cycle`:
on an edge into an unvisited node recurse, on an edge into a node still on
the recursion stack report a cycle. -/
def dfsScan (g : Nat → Nat → Bool) : Nat → Nat → Finset Nat → List Nat → List Nat → Bool × Finset Nat
  | _, _, visited, _, [] => (false, visited)
  | fuel, node, visited, stk, j :: rest =>
    if g node j then
      if j ∈ visited then
        if j ∈ stk then (true, visited)
        else dfsScan g fuel node visited stk rest
      else
        match dfsCycle g fuel j visited stk with
        | (true, visited') => (true, visited')
        | (false, visited') => dfsScan g fuel node visited' stk rest
    else dfsScan g fuel node visited stk rest
termination_by fuel _ _ _ l => (fuel, l.length + 1)

end

/-- The loop of `detect_deadlock` over the transaction table: run a DFS from every
registered, still unvisited node, sharing the `visited` set. -/
def detectScan (g : Nat → Nat → Bool) (reg : Nat → Bool) : Finset Nat → List Nat → Bool
  | _, [] => false
  | visited, i :: rest =>
    if reg i = true ∧ i ∉ visited then
      match dfsCycle g (MAX_TRANSACTIONS + 1) i visited [] with
      | (true, _) => true
      | (false, visited') => detectScan g reg visited' rest
    else detectScan g reg visited rest

/-- Function `detect_deadlock` from mvcc.c. -/
def detect_deadlock (g : Nat → Nat → Bool) (reg : Nat → Bool) : Bool :=
  detectScan g reg ∅ (List.range' 1 MAX_TRANSACTIONS)

/-- The edge relation of the wait-for graph. -/
def wEdge (g : Nat → Nat → Bool) (a b : Nat) : Prop := g a b = true

/-- The wait-for matrix of a state, as an adjacency function. -/
def wait_graph (s : MvccState) : Nat → Nat → Bool :=
  fun a b => decide ((a, b) ∈ s.wait_for)

/-- Occupancy of `tx_table`. -/
def registered (s : MvccState) : Nat → Bool :=
  fun i => decide (i ∈ s.tx_table)

/-- Outcome of one iteration of the `acquire_key_lock` retry loop.  `blocked`
is the branch in which the C code sleeps and retries: sequentially the lock
owner cannot change in between, so the loop never returns in that case. -/
inductive AcquireResult where
  | ok (s : MvccState)
  | fail (s : MvccState)
  | blocked (s : MvccState)
deriving DecidableEq, Repr

/-- Function `acquire_key_lock` from mvcc.c (one iteration of the retry loop, see
`AcquireResult`): missing key fails; a free lock is taken (clearing the
acquirer's wait edges); a re-entrant acquisition succeeds; otherwise a wait
edge is recorded and deadlock detection either fails the acquisition (clearing
the acquirer's edges) or leaves it blocked. -/
def acquire_key_lock (s : MvccState) (tid : Nat) (keyname : String) : AcquireResult :=
  match get_key s.store keyname with
  | none => .fail s
  | some k =>
    if k.lock_owner = 0 then
      .ok { s with store := set_key_f s.store keyname (fun k0 => { k0 with lock_owner := tid }),
                   wait_for := remove_wait_edges_of s.wait_for tid }
    else if k.lock_owner = tid then
      .ok s
    else
      let s1 := { s with wait_for := add_wait_edge s.wait_for tid k.lock_owner }
      if detect_deadlock (wait_graph s1) (registered s1) then
        .fail { s1 with wait_for := remove_wait_edges_of s1.wait_for tid }
      else
        .blocked s1

/-- Function `release_locks` from mvcc.c: clear every lock held by `tid` and remove `tid`'s wait
edges in both directions. -/
def release_locks (s : MvccState) (tid : Nat) : MvccState :=
  { s with
    store := s.store.map (fun k => if k.lock_owner = tid then { k with lock_owner := 0 } else k),
    wait_for := remove_wait_edges_of s.wait_for tid }

/-- Function `tx_read` from mvcc.c: a no-op on a non-active transaction (the C code returns without
an error).  On an active transaction the chain walk (`mvcc_read`) has no side
effect — its result is only printed — and the key name is appended to the
read set whether or not the key or a visible version exists. -/
def tx_read (s : MvccState) (tx : Transaction) (keyname : String) : Transaction :=
  if tx.state = .active then record_read tx keyname else tx

/-- Function `tx_write` from mvcc.c.  Returns `none` for the diverging (blocked) case
of lock acquisition; otherwise `some (code, state, transaction)`.  The
`create_key` branch is dead code for a missing key: `acquire_key_lock` has
already failed in that case (see `acquire_key_lock_ok_key_exists`), and the C
code would dereference `NULL` if creation itself failed, which the embedding
renders as leaving the store unchanged. -/
def tx_write (s : MvccState) (tx : Transaction) (keyname v : String) :
    Option (Int × MvccState × Transaction) :=
  if tx.state ≠ .active then some (-1, s, tx)
  else
    match acquire_key_lock s tx.id keyname with
    | .blocked _ => none
    | .fail s1 => some (-1, s1, { tx with state := .aborted })
    | .ok s1 =>
      let store1 := match get_key s1.store keyname with
        | some _ => s1.store
        | none => (create_key s1.store keyname "").getD s1.store
      let store2 := set_key_f store1 keyname
        (fun k => { k with versions := { commit_ts := 0, tx_owner := tx.id, value := v } :: k.versions })
      some (0, { s1 with store := store2 }, record_write_buffer tx keyname v)

/-- Function `check_read_write_conflicts` from mvcc.c: some key of the read set exists and its
newest version was committed after the transaction's snapshot. -/
def check_read_write_conflicts (s : MvccState) (tx : Transaction) : Bool :=
  tx.read_set.any (fun rk =>
    match get_key s.store rk with
    | none => false
    | some k =>
      match k.versions with
      | [] => false
      | v :: _ => decide (tx.start_ts < v.commit_ts))

/-- Outcome of the lock-acquisition loop at the start of `tx_commit`. -/
inductive LockPhase where
  | ok (s : MvccState)
  | failed (s : MvccState)
  | stuck
deriving Repr

/-- The `for` loop of `tx_commit` that acquires a lock for every write-set
key (re-entrant acquisitions succeed immediately). -/
def commit_lock_phase (s : MvccState) (tid : Nat) : List (String × String) → LockPhase
  | [] => .ok s
  | (k, _) :: rest =>
    match acquire_key_lock s tid k with
    | .ok s1 => commit_lock_phase s1 tid rest
    | .fail s1 => .failed s1
    | .blocked _ => .stuck

/-- The stamping loop of `tx_commit` over one chain: each version owned
(uncommitted) by `tid` receives `++global_commit_ts` — the counter is
incremented once per stamped version — and its ownership is cleared. -/
def stampChain (tid : Nat) : Nat → List Version → List Version × Nat
  | gts, [] => ([], gts)
  | gts, v :: rest =>
    if v.commit_ts = 0 ∧ v.tx_owner = tid then
      let r := stampChain tid (gts + 1) rest
      ({ v with commit_ts := gts + 1, tx_owner := 0 } :: r.1, r.2)
    else
      let r := stampChain tid gts rest
      (v :: r.1, r.2)

/-- The stamping loop of `tx_commit` over the whole store. -/
def stampStore (tid : Nat) : Nat → List Key → List Key × Nat
  | gts, [] => ([], gts)
  | gts, k :: rest =>
    let c := stampChain tid gts k.versions
    let r := stampStore tid c.2 rest
    ({ k with versions := c.1 } :: r.1, r.2)

/-- Function `tx_commit` from mvcc.c: refuse non-active transactions; acquire write
locks (failure aborts and releases); validate the read set (conflict aborts
and releases); otherwise stamp every version owned by the transaction, mark
the transaction committed and release its locks.  `none` models the blocked
(never-returning) lock acquisition case. -/
def tx_commit (s : MvccState) (tx : Transaction) : Option (Int × MvccState × Transaction) :=
  if tx.state ≠ .active then some (-1, s, tx)
  else
    match commit_lock_phase s tx.id tx.write_set with
    | .stuck => none
    | .failed s1 => some (-1, release_locks s1 tx.id, { tx with state := .aborted })
    | .ok s1 =>
      if check_read_write_conflicts s1 tx then
        some (-1, release_locks s1 tx.id, { tx with state := .aborted })
      else
        let r := stampStore tx.id s1.global_commit_ts s1.store
        some (0, release_locks { s1 with store := r.1, global_commit_ts := r.2 } tx.id,
              { tx with state := .committed })

/-- Function `tx_abort` from mvcc.c.  Note: no check of the transaction state — every
version owned (uncommitted) by the transaction is unlinked from its chain,
locks are released, and the state is set to `aborted` unconditionally. -/
def tx_abort (s : MvccState) (tx : Transaction) : MvccState × Transaction :=
  let store1 := s.store.map (fun k =>
    { k with versions := k.versions.filter (fun v => !(v.commit_ts == 0 && v.tx_owner == tx.id)) })
  (release_locks { s with store := store1 } tx.id, { tx with state := .aborted })

/-- The name/chain projection of a store: everything the reads, the conflict
validator and the stamping loop depend on (lock owners stripped). -/
def chains (store : List Key) : List (String × List Version) :=
  store.map (fun k => (k.name, k.versions))

/-- The read-set validation condition as the spec states it: some key of the
read set exists and its newest version was committed strictly after the
transaction's snapshot. -/
def read_write_conflict (s : MvccState) (tx : Transaction) : Prop :=
  ∃ rk ∈ tx.read_set, ∃ k, get_key s.store rk = some k ∧
    ∃ v rest, k.versions = v :: rest ∧ tx.start_ts < v.commit_ts

/-- A set of nodes closed under the wait-for edges. -/
def wClosed (g : Nat → Nat → Bool) (B : Nat → Prop) : Prop :=
  ∀ a b, B a → g a b = true → B b

/-- No node of the set lies on a wait-for cycle. -/
def wAcyclicIn (g : Nat → Nat → Bool) (B : Nat → Prop) : Prop :=
  ∀ c, B c → ¬ Relation.TransGen (wEdge g) c c

/-- The fully processed nodes of the DFS: visited and no longer on the
recursion stack. -/
def Blacks (visited : Finset Nat) (stk : List Nat) : Nat → Prop :=
  fun x => x ∈ visited ∧ x ∉ stk

/-- How many of the nodes `0 .. MAX_TRANSACTIONS` are not yet visited; the
bound that makes `MAX_TRANSACTIONS + 1` fuel sufficient. -/
def unvisitedCount (visited : Finset Nat) : Nat :=
  ((Finset.range (MAX_TRANSACTIONS + 1)).filter (fun x => x ∉ visited)).card

/-! Concrete states used by the closed instances below. -/

/-- A committed version, as left by `create_key(name, initial)`. -/
def initialVersion (val : String) : Version := { commit_ts := 1, tx_owner := 0, value := val }

/-- An uncommitted version owned by `tid`. -/
def pendingVersion (tid : Nat) (val : String) : Version := { commit_ts := 0, tx_owner := tid, value := val }

def c1_s : MvccState :=
  { store := [{ name := "A", versions := [pendingVersion 1 "x", initialVersion "a0"], lock_owner := 1 },
              { name := "B", versions := [pendingVersion 1 "y", initialVersion "b0"], lock_owner := 1 }],
    global_commit_ts := 5, global_tx_seq := 2, wait_for := [], tx_table := [1] }

def c1_tx : Transaction :=
  { id := 1, start_ts := 5, state := .active, read_set := [], write_set := [("A", "x"), ("B", "y")] }

def c1_res : Int × MvccState × Transaction := (tx_commit c1_s c1_tx).getD (-1, c1_s, c1_tx)

def c3_s : MvccState :=
  { store := [{ name := "A", versions := [initialVersion "a0"], lock_owner := 0 }],
    global_commit_ts := 1, global_tx_seq := 2, wait_for := [], tx_table := [1] }

def c3_tx : Transaction :=
  { id := 1, start_ts := 1, state := .committed, read_set := [], write_set := [] }

def c4_s : MvccState :=
  { store := [{ name := "A", versions := [initialVersion "a0"], lock_owner := 0 }],
    global_commit_ts := 1, global_tx_seq := 2, wait_for := [], tx_table := [1] }

def c4_tx : Transaction :=
  { id := 1, start_ts := 1, state := .active, read_set := [], write_set := [] }

def c5_s : MvccState :=
  { store := [{ name := "A", versions := [{ commit_ts := 7, tx_owner := 0, value := "n" }, initialVersion "a0"], lock_owner := 0 }],
    global_commit_ts := 7, global_tx_seq := 3, wait_for := [], tx_table := [2] }

def c5_tx : Transaction :=
  { id := 2, start_ts := 5, state := .active, read_set := ["A"], write_set := [] }

def c6_own : List Version := [pendingVersion 4 "w2", pendingVersion 4 "w1"]

def c6_old : List Version := [{ commit_ts := 3, tx_owner := 0, value := "c1" }, initialVersion "a0"]

def c6_key : Key := { name := "A", versions := c6_own ++ c6_old, lock_owner := 4 }

def c6_s : MvccState :=
  { store := [c6_key], global_commit_ts := 3, global_tx_seq := 5, wait_for := [], tx_table := [4] }

def c6_tx : Transaction :=
  { id := 4, start_ts := 3, state := .active, read_set := [], write_set := [("A", "w2")] }

def c7_g : Nat → Nat → Bool := fun a b => (a == 1 && b == 2) || (a == 2 && b == 1)

def c7_reg : Nat → Bool := fun i => i == 1 || i == 2

def c8_s0 : MvccState :=
  { store := [{ name := "A", versions := [initialVersion "a0"], lock_owner := 0 }],
    global_commit_ts := 1, global_tx_seq := 2, wait_for := [], tx_table := [1] }

def c8_tx0 : Transaction :=
  { id := 1, start_ts := 1, state := .active, read_set := [], write_set := [] }

def c8_r1 : Int × MvccState × Transaction := (tx_write c8_s0 c8_tx0 "A" "x").getD (-1, c8_s0, c8_tx0)

def c8_r2 : Int × MvccState × Transaction :=
  (tx_write c8_r1.2.1 c8_r1.2.2 "A" "y").getD (-1, c8_r1.2.1, c8_r1.2.2)

def c9_s : MvccState :=
  { store := [{ name := "A", versions := [initialVersion "a0"], lock_owner := 0 },
              { name := "B", versions := [initialVersion "b0"], lock_owner := 0 }],
    global_commit_ts := 1, global_tx_seq := 2, wait_for := [], tx_table := [1] }

def c9_tx : Transaction :=
  { id := 1, start_ts := 1, state := .active, read_set := [],
    write_set := List.replicate MAX_READSET ("A", "x") }

def c9_w : Int × MvccState × Transaction := (tx_write c9_s c9_tx "B" "y").getD (-1, c9_s, c9_tx)

def c9_c : Int × MvccState × Transaction :=
  (tx_commit c9_w.2.1 c9_w.2.2).getD (-1, c9_w.2.1, c9_w.2.2)

def c10_s : MvccState :=
  { store := [{ name := "A", versions := [initialVersion "a0"], lock_owner := 0 }],
    global_commit_ts := 1, global_tx_seq := 3, wait_for := [], tx_table := [2] }

def c10_tx : Transaction :=
  { id := 2, start_ts := 1, state := .active, read_set := [], write_set := [] }

def c10_s2 : MvccState :=
  { store := [{ name := "A", versions := [initialVersion "a0"], lock_owner := 0 },
              { name := "B", versions := [{ commit_ts := 5, tx_owner := 0, value := "n" }], lock_owner := 0 }],
    global_commit_ts := 5, global_tx_seq := 4, wait_for := [], tx_table := [2] }

/-- C2: `mvcc_read` returns exactly the value of the first (newest-to-oldest)
version of the chain satisfying the spec's visibility disjunction, and `none`
("not found") when no version satisfies it. -/
theorem C2_mvcc_read_first_visible (tx : Transaction) (chain : List Version) :
    mvcc_read tx chain = (chain.find? (fun v => decide (visible_to tx v))).map Version.value := by
  induction chain with
  | nil => rfl
  | cons v rest ih =>
    by_cases h1 : 0 < v.commit_ts ∧ v.commit_ts ≤ tx.start_ts
    · simp [mvcc_read, h1, List.find?, visible_to]
    · by_cases h2 : v.commit_ts = 0 ∧ v.tx_owner = tx.id
      · simp [mvcc_read, h1, h2, List.find?, visible_to]
      · have hnv : ¬ visible_to tx v := by
          unfold visible_to; tauto
        simp only [mvcc_read, if_neg h1, if_neg h2, List.find?, decide_eq_true_eq]
        rw [decide_eq_false hnv]
        exact ih

/-! Store bookkeeping lemmas used by the claim theorems. -/

lemma get_key_set_key_f_same (st : List Key) (n : String) (f : Key → Key)
    (hf : ∀ k, (f k).name = k.name) :
    get_key (set_key_f st n f) n = (get_key st n).map f := by
  induction st with
  | nil => rfl
  | cons k rest ih =>
    by_cases h : k.name = n
    · simp [set_key_f, get_key, h, hf k]
    · simp [set_key_f, get_key, h, hf k, ih]

lemma get_key_set_key_f_other (st : List Key) (n m : String) (f : Key → Key)
    (hf : ∀ k, (f k).name = k.name) (hm : m ≠ n) :
    get_key (set_key_f st n f) m = get_key st m := by
  induction st with
  | nil => rfl
  | cons k rest ih =>
    by_cases h : k.name = n
    · have hkm : ¬ k.name = m := by rw [h]; exact fun hh => hm hh.symm
      simp [set_key_f, get_key, h, hf k, hkm, Ne.symm hm]
    · by_cases hkm : k.name = m <;> simp [set_key_f, get_key, h, hkm, hm, ih]

lemma get_key_map (st : List Key) (f : Key → Key) (n : String)
    (hf : ∀ k, (f k).name = k.name) :
    get_key (st.map f) n = (get_key st n).map f := by
  induction st with
  | nil => rfl
  | cons k rest ih => by_cases h : k.name = n <;> simp [get_key, h, hf k, ih]

lemma chains_map_eq (st : List Key) (f : Key → Key)
    (hf : ∀ k, (f k).name = k.name ∧ (f k).versions = k.versions) :
    chains (st.map f) = chains st := by
  induction st with
  | nil => rfl
  | cons k rest ih =>
    simp only [chains, List.map_cons] at ih ⊢
    rw [(hf k).1, (hf k).2, ih]

lemma chains_set_key_f (st : List Key) (n : String) (f : Key → Key)
    (hf : ∀ k, (f k).name = k.name ∧ (f k).versions = k.versions) :
    chains (set_key_f st n f) = chains st := by
  induction st with
  | nil => rfl
  | cons k rest ih =>
    by_cases h : k.name = n
    · simp only [set_key_f, if_pos h, chains, List.map_cons]
      rw [(hf k).1, (hf k).2]
    · simp only [set_key_f, if_neg h, chains, List.map_cons] at ih ⊢
      rw [ih]

lemma chains_get_key (st1 st2 : List Key) (h : chains st1 = chains st2) (n : String) :
    (get_key st1 n).map Key.versions = (get_key st2 n).map Key.versions := by
  induction st1 generalizing st2 with
  | nil =>
    cases st2 with
    | nil => rfl
    | cons k2 rest2 => simp [chains] at h
  | cons k rest ih =>
    cases st2 with
    | nil => simp [chains] at h
    | cons k2 rest2 =>
      simp only [chains, List.map_cons, List.cons.injEq, Prod.mk.injEq] at h
      obtain ⟨⟨hn, hv⟩, ht⟩ := h
      by_cases hh : k.name = n
      · simp [get_key, hh, hn ▸ hh, hv]
      · have hh2 : ¬ k2.name = n := by rw [← hn]; exact hh
        simp only [get_key, if_neg hh, if_neg hh2]
        exact ih rest2 (by simpa [chains] using ht)


/-- A successful `acquire_key_lock` implies the key exists: the missing-key
branch always fails (this is what makes the lazy-creation branch of
`tx_write` dead code). -/
lemma acquire_key_lock_ok_key_exists (s : MvccState) (tid : Nat) (kn : String) (s1 : MvccState)
    (h : acquire_key_lock s tid kn = .ok s1) : ∃ k, get_key s.store kn = some k := by
  unfold acquire_key_lock at h
  cases hg : get_key s.store kn with
  | none => rw [hg] at h; simp at h
  | some k => exact ⟨k, rfl⟩

/-- What a successful acquisition does to the state: the store is unchanged or
gets the lock owner of the acquired key set, and the commit counter, the
transaction counter and the table are untouched. -/
lemma acquire_ok_cases (s : MvccState) (tid : Nat) (kn : String) (s1 : MvccState)
    (h : acquire_key_lock s tid kn = .ok s1) :
    (s1.store = s.store ∨
      s1.store = set_key_f s.store kn (fun k0 => { k0 with lock_owner := tid })) ∧
    s1.global_commit_ts = s.global_commit_ts ∧ s1.global_tx_seq = s.global_tx_seq ∧
    s1.tx_table = s.tx_table := by
  unfold acquire_key_lock at h
  cases hg : get_key s.store kn with
  | none => rw [hg] at h; simp at h
  | some k =>
    rw [hg] at h
    dsimp only at h
    by_cases h0 : k.lock_owner = 0
    · rw [if_pos h0] at h
      cases h
      exact ⟨Or.inr rfl, rfl, rfl, rfl⟩
    · by_cases h1 : k.lock_owner = tid
      · rw [if_neg h0, if_pos h1] at h
        cases h
        exact ⟨Or.inl rfl, rfl, rfl, rfl⟩
      · rw [if_neg h0, if_neg h1] at h
        split at h <;> simp at h

/-- A failed acquisition leaves the store and the counters unchanged (only
wait edges can differ). -/
lemma acquire_fail_cases (s : MvccState) (tid : Nat) (kn : String) (s1 : MvccState)
    (h : acquire_key_lock s tid kn = .fail s1) :
    s1.store = s.store ∧ s1.global_commit_ts = s.global_commit_ts ∧
    s1.global_tx_seq = s.global_tx_seq ∧ s1.tx_table = s.tx_table := by
  unfold acquire_key_lock at h
  cases hg : get_key s.store kn with
  | none => rw [hg] at h; cases h; exact ⟨rfl, rfl, rfl, rfl⟩
  | some k =>
    rw [hg] at h
    dsimp only at h
    by_cases h0 : k.lock_owner = 0
    · rw [if_pos h0] at h; simp at h
    · by_cases h1 : k.lock_owner = tid
      · rw [if_neg h0, if_pos h1] at h; simp at h
      · rw [if_neg h0, if_neg h1] at h
        split at h
        · cases h; exact ⟨rfl, rfl, rfl, rfl⟩
        · simp at h

/-- Acquisition never changes any version chain. -/
lemma acquire_ok_chains (s : MvccState) (tid : Nat) (kn : String) (s1 : MvccState)
    (h : acquire_key_lock s tid kn = .ok s1) : chains s1.store = chains s.store := by
  rcases (acquire_ok_cases s tid kn s1 h).1 with h' | h'
  · rw [h']
  · rw [h']; exact chains_set_key_f _ _ _ (fun k => ⟨rfl, rfl⟩)

/-- The commit-time lock loop only changes lock owners and wait edges. -/
lemma commit_lock_phase_ok (ws : List (String × String)) (s : MvccState) (tid : Nat)
    (s1 : MvccState) (h : commit_lock_phase s tid ws = .ok s1) :
    chains s1.store = chains s.store ∧ s1.global_commit_ts = s.global_commit_ts := by
  induction ws generalizing s with
  | nil => cases h; exact ⟨rfl, rfl⟩
  | cons kv rest ih =>
    obtain ⟨kn1, v1⟩ := kv
    rw [commit_lock_phase] at h
    cases ha : acquire_key_lock s tid kn1 with
    | ok s2 =>
      rw [ha] at h
      obtain ⟨hc, hg⟩ := ih s2 h
      exact ⟨hc.trans (acquire_ok_chains s tid kn1 s2 ha),
             hg.trans (acquire_ok_cases s tid kn1 s2 ha).2.1⟩
    | fail s2 => rw [ha] at h; simp at h
    | blocked s2 => rw [ha] at h; simp at h

/-- A failing commit-time lock loop also leaves every chain unchanged. -/
lemma commit_lock_phase_failed (ws : List (String × String)) (s : MvccState) (tid : Nat)
    (s1 : MvccState) (h : commit_lock_phase s tid ws = .failed s1) :
    chains s1.store = chains s.store ∧ s1.global_commit_ts = s.global_commit_ts := by
  induction ws generalizing s with
  | nil => simp [commit_lock_phase] at h
  | cons kv rest ih =>
    obtain ⟨kn1, v1⟩ := kv
    rw [commit_lock_phase] at h
    cases ha : acquire_key_lock s tid kn1 with
    | ok s2 =>
      rw [ha] at h
      obtain ⟨hc, hg⟩ := ih s2 h
      exact ⟨hc.trans (acquire_ok_chains s tid kn1 s2 ha),
             hg.trans (acquire_ok_cases s tid kn1 s2 ha).2.1⟩
    | fail s2 =>
      rw [ha] at h
      injection h with heq
      subst heq
      obtain ⟨hst, hg, _, _⟩ := acquire_fail_cases s tid kn1 s2 ha
      exact ⟨by rw [hst], hg⟩
    | blocked s2 => rw [ha] at h; simp at h

/-- Lemma: `check_read_write_conflicts` decides exactly the spec's validation
condition. -/
lemma check_rw_iff (s : MvccState) (tx : Transaction) :
    check_read_write_conflicts s tx = true ↔ read_write_conflict s tx := by
  unfold check_read_write_conflicts read_write_conflict
  rw [List.any_eq_true]
  constructor
  · rintro ⟨rk, hrk, hp⟩
    refine ⟨rk, hrk, ?_⟩
    cases hg : get_key s.store rk with
    | none => rw [hg] at hp; simp at hp
    | some k =>
      rw [hg] at hp
      dsimp only at hp
      cases hv : k.versions with
      | nil => rw [hv] at hp; simp at hp
      | cons v rest =>
        rw [hv] at hp
        simp only [decide_eq_true_eq] at hp
        exact ⟨k, rfl, v, rest, hv, hp⟩
  · rintro ⟨rk, hrk, k, hg, v, rest, hv, hlt⟩
    refine ⟨rk, hrk, ?_⟩
    rw [hg]
    dsimp only
    rw [hv]
    simpa using hlt

/-- Conflict checking depends only on the chains of the store. -/
lemma read_write_conflict_mono (s1 s2 : MvccState) (tx : Transaction)
    (h : chains s1.store = chains s2.store) :
    read_write_conflict s1 tx → read_write_conflict s2 tx := by
  rintro ⟨rk, hrk, k, hg, v, rest, hv, hlt⟩
  have hmap := chains_get_key s1.store s2.store h rk
  rw [hg] at hmap
  cases hg2 : get_key s2.store rk with
  | none => rw [hg2] at hmap; simp at hmap
  | some k2 =>
    rw [hg2] at hmap
    simp only [Option.map_some', Option.some.injEq] at hmap
    exact ⟨rk, hrk, k2, hg2, v, rest, by rw [← hmap, hv], hlt⟩

lemma read_write_conflict_congr (s1 s2 : MvccState) (tx : Transaction)
    (h : chains s1.store = chains s2.store) :
    read_write_conflict s1 tx ↔ read_write_conflict s2 tx :=
  ⟨read_write_conflict_mono s1 s2 tx h, read_write_conflict_mono s2 s1 tx h.symm⟩

lemma check_rw_congr (s1 s2 : MvccState) (tx : Transaction)
    (h : chains s1.store = chains s2.store) :
    check_read_write_conflicts s1 tx = check_read_write_conflicts s2 tx := by
  cases hb2 : check_read_write_conflicts s2 tx
  · cases hb1 : check_read_write_conflicts s1 tx
    · rfl
    · have := (check_rw_iff s2 tx).mpr
        ((read_write_conflict_congr s1 s2 tx h).mp ((check_rw_iff s1 tx).mp hb1))
      rw [hb2] at this
      simp at this
  · exact (check_rw_iff s1 tx).mpr
      ((read_write_conflict_congr s1 s2 tx h).mpr ((check_rw_iff s2 tx).mp hb2))

/-- Releasing locks changes no chain. -/
lemma chains_release (s : MvccState) (tid : Nat) :
    chains (release_locks s tid).store = chains s.store := by
  unfold release_locks
  exact chains_map_eq _ _ (fun k => by refine ⟨?_, ?_⟩ <;> split <;> rfl)

lemma get_key_release_versions (s : MvccState) (tid : Nat) (n : String) :
    (get_key (release_locks s tid).store n).map Key.versions =
      (get_key s.store n).map Key.versions :=
  chains_get_key _ _ (chains_release s tid) n

/-- After `release_locks`, no key is locked by `tid`. -/
lemma release_no_lock (s : MvccState) (tid : Nat) (ht : tid ≠ 0) :
    ∀ k ∈ (release_locks s tid).store, k.lock_owner ≠ tid := by
  intro k hk
  unfold release_locks at hk
  simp only [List.mem_map] at hk
  obtain ⟨k0, _, rfl⟩ := hk
  by_cases h : k0.lock_owner = tid
  · simp only [if_pos h]
    exact fun hh => ht hh.symm
  · simp only [if_neg h]
    exact h

/-- Every version produced by the stamping loop is either freshly stamped
(positive timestamp, owner cleared) or was not owned by `tid` to begin with;
in particular none is an uncommitted version of `tid`. -/
lemma stampChain_no_owned (tid : Nat) : ∀ (gts : Nat) (ch : List Version) (v : Version),
    v ∈ (stampChain tid gts ch).1 → ¬(v.commit_ts = 0 ∧ v.tx_owner = tid) := by
  intro gts ch
  induction ch generalizing gts with
  | nil => intro v hv; simp [stampChain] at hv
  | cons v0 rest ih =>
    intro v hv
    by_cases h : v0.commit_ts = 0 ∧ v0.tx_owner = tid
    · rw [stampChain, if_pos h] at hv
      rcases List.mem_cons.mp hv with rfl | h'
      · intro hc
        exact Nat.succ_ne_zero gts hc.1
      · exact ih (gts + 1) v h'
    · rw [stampChain, if_neg h] at hv
      rcases List.mem_cons.mp hv with rfl | h'
      · exact h
      · exact ih gts v h'

lemma stampStore_no_owned (tid : Nat) : ∀ (st : List Key) (gts : Nat) (k : Key),
    k ∈ (stampStore tid gts st).1 → ∀ v ∈ k.versions, ¬(v.commit_ts = 0 ∧ v.tx_owner = tid) := by
  intro st
  induction st with
  | nil => intro gts k hk; simp [stampStore] at hk
  | cons k0 rest ih =>
    intro gts k hk
    rw [stampStore] at hk
    rcases List.mem_cons.mp hk with rfl | h'
    · intro v hv
      exact stampChain_no_owned tid gts k0.versions v hv
    · exact ih _ k h'

/-- Stamping preserves names and transforms each chain by `stampChain` at
some intermediate counter value. -/
lemma get_key_stampStore (tid : Nat) : ∀ (st : List Key) (gts : Nat) (n : String) (k : Key),
    get_key st n = some k →
    ∃ g0, get_key (stampStore tid gts st).1 n =
      some { k with versions := (stampChain tid g0 k.versions).1 } := by
  intro st
  induction st with
  | nil => intro gts n k h; simp [get_key] at h
  | cons k0 rest ih =>
    intro gts n k h
    by_cases hn : k0.name = n
    · rw [get_key, if_pos hn] at h
      injection h with h
      subst h
      refine ⟨gts, ?_⟩
      rw [stampStore, get_key, if_pos hn]
    · rw [get_key, if_neg hn] at h
      obtain ⟨g0, hg⟩ := ih (stampChain tid gts k0.versions).2 n k h
      refine ⟨g0, ?_⟩
      rw [stampStore, get_key, if_neg hn]
      exact hg

/-- Through a successful acquisition the looked-up key keeps its name and
chain (only its lock owner may change). -/
lemma acquire_ok_get_key (s : MvccState) (tid : Nat) (kn : String) (s1 : MvccState)
    (h : acquire_key_lock s tid kn = .ok s1) :
    ∃ k0 k1, get_key s.store kn = some k0 ∧ get_key s1.store kn = some k1 ∧
      k1.versions = k0.versions ∧ k1.name = k0.name := by
  obtain ⟨k0, hk0⟩ := acquire_key_lock_ok_key_exists s tid kn s1 h
  rcases (acquire_ok_cases s tid kn s1 h).1 with h' | h'
  · exact ⟨k0, k0, hk0, by rw [h', hk0], rfl, rfl⟩
  · refine ⟨k0, { k0 with lock_owner := tid }, hk0, ?_, rfl, rfl⟩
    rw [h', get_key_set_key_f_same s.store kn
          (fun k0 => { k0 with lock_owner := tid }) (fun k => rfl), hk0]
    rfl

/-- What a successful `tx_write` does: the new uncommitted version is
prepended to the (already existing) key's chain, no other chain changes, the
commit counter is unchanged, and the write is recorded through
`record_write_buffer`. -/
lemma tx_write_ok (s : MvccState) (tx : Transaction) (kn v : String)
    (s' : MvccState) (tx' : Transaction)
    (h : tx.state = .active) (hw : tx_write s tx kn v = some (0, s', tx')) :
    ∃ k0, get_key s.store kn = some k0 ∧
      (get_key s'.store kn).map Key.versions =
        some ({ commit_ts := 0, tx_owner := tx.id, value := v } :: k0.versions) ∧
      (∀ m, m ≠ kn → (get_key s'.store m).map Key.versions = (get_key s.store m).map Key.versions) ∧
      s'.global_commit_ts = s.global_commit_ts ∧
      tx' = record_write_buffer tx kn v := by
  unfold tx_write at hw
  rw [if_neg (by simp [h])] at hw
  cases ha : acquire_key_lock s tx.id kn with
  | blocked s1 => rw [ha] at hw; simp at hw
  | fail s1 => rw [ha] at hw; simp at hw
  | ok s1 =>
    rw [ha] at hw
    dsimp only at hw
    obtain ⟨k0, k1, hk0, hk1, hv1, hn1⟩ := acquire_ok_get_key s tx.id kn s1 ha
    rw [hk1] at hw
    dsimp only at hw
    simp only [Option.some.injEq, Prod.mk.injEq] at hw
    obtain ⟨-, hs, ht⟩ := hw
    subst hs
    subst ht
    refine ⟨k0, hk0, ?_, ?_, (acquire_ok_cases s tx.id kn s1 ha).2.1, rfl⟩
    · rw [get_key_set_key_f_same s1.store kn
            (fun k => { k with versions := { commit_ts := 0, tx_owner := tx.id, value := v } :: k.versions })
            (fun k => rfl), hk1]
      simp [hv1]
    · intro m hm
      rw [get_key_set_key_f_other s1.store kn m
            (fun k => { k with versions := { commit_ts := 0, tx_owner := tx.id, value := v } :: k.versions })
            (fun k => rfl) hm]
      exact chains_get_key _ _ (acquire_ok_chains s tx.id kn s1 ha) m

/-- What a successful `tx_commit` is made of: the lock phase succeeded,
validation found no conflict, the store was stamped and the locks released,
and the transaction was marked committed. -/
lemma tx_commit_ok (s : MvccState) (tx : Transaction) (s'' : MvccState) (tx'' : Transaction)
    (h : tx.state = .active) (hc : tx_commit s tx = some (0, s'', tx'')) :
    ∃ s1, commit_lock_phase s tx.id tx.write_set = .ok s1 ∧
      check_read_write_conflicts s1 tx = false ∧
      s'' = release_locks
          { s1 with
            store := (stampStore tx.id s1.global_commit_ts s1.store).1
            global_commit_ts := (stampStore tx.id s1.global_commit_ts s1.store).2 } tx.id ∧
      tx'' = { tx with state := .committed } := by
  unfold tx_commit at hc
  rw [if_neg (by simp [h])] at hc
  cases hl : commit_lock_phase s tx.id tx.write_set with
  | stuck => rw [hl] at hc; simp at hc
  | failed s1 => rw [hl] at hc; simp at hc
  | ok s1 =>
    rw [hl] at hc
    dsimp only at hc
    by_cases hrw : check_read_write_conflicts s1 tx = true
    · rw [if_pos hrw] at hc; simp at hc
    · rw [if_neg hrw] at hc
      simp only [Option.some.injEq, Prod.mk.injEq] at hc
      obtain ⟨-, hs, ht⟩ := hc
      exact ⟨s1, rfl, by simpa using hrw, hs.symm, ht.symm⟩

/-- C1: the stamping loop of `tx_commit` executes `++global_commit_ts` once
per stamped version, not once per commit: committing a transaction with two
buffered writes (counter at 5) publishes its two versions at the distinct
timestamps 6 and 7 and advances the counter twice, not once — there is no
single shared commit timestamp. -/
theorem C1_per_version_commit_timestamps :
    c1_res.1 = 0 ∧
    (get_key c1_res.2.1.store "A").map (fun k => k.versions.map Version.commit_ts) = some [6, 1] ∧
    (get_key c1_res.2.1.store "B").map (fun k => k.versions.map Version.commit_ts) = some [7, 1] ∧
    c1_res.2.1.global_commit_ts = c1_s.global_commit_ts + 2 := by
  decide

/-- C3 counterexample: `tx_abort` has no terminal-state guard, so aborting a
`Committed` transaction changes its (supposedly terminal) state. -/
theorem C3_counterexample_abort_after_commit :
    c3_tx.state = .committed ∧ (tx_abort c3_s c3_tx).2.state ≠ c3_tx.state := by
  decide

/-- C3 (amended): read, write and commit on a terminal transaction change
nothing (write and commit return the error `-1`, read silently no-ops), and
`tx_abort` unconditionally re-runs its cleanup and sets the state to
`Aborted`: on an already-`Aborted` transaction the transaction value is
unchanged, but a `Committed` transaction is moved to `Aborted`. -/
theorem C3_terminal_operations (s : MvccState) (tx : Transaction)
    (h : tx.state = .committed ∨ tx.state = .aborted) :
    (∀ kn, tx_read s tx kn = tx) ∧
    (∀ kn v, tx_write s tx kn v = some (-1, s, tx)) ∧
    tx_commit s tx = some (-1, s, tx) ∧
    (tx_abort s tx).2.state = .aborted ∧
    (tx.state = .aborted → (tx_abort s tx).2 = tx) := by
  have hne : tx.state ≠ .active := by rcases h with h | h <;> rw [h] <;> simp
  refine ⟨?_, ?_, ?_, rfl, ?_⟩
  · intro kn; unfold tx_read; rw [if_neg hne]
  · intro kn v; unfold tx_write; rw [if_pos hne]
  · unfold tx_commit; rw [if_pos hne]
  · intro ha
    cases tx with
    | mk i st stt rs ws =>
      have ha' : stt = .aborted := ha
      subst ha'
      rfl

theorem C3_terminal_operations_witness :
    (c3_tx.state = .committed ∨ c3_tx.state = .aborted) ∧
    ((∀ kn, tx_read c3_s c3_tx kn = c3_tx) ∧
     (∀ kn v, tx_write c3_s c3_tx kn v = some (-1, c3_s, c3_tx)) ∧
     tx_commit c3_s c3_tx = some (-1, c3_s, c3_tx) ∧
     (tx_abort c3_s c3_tx).2.state = .aborted ∧
     (c3_tx.state = .aborted → (tx_abort c3_s c3_tx).2 = c3_tx)) :=
  ⟨Or.inl rfl, C3_terminal_operations c3_s c3_tx (Or.inl rfl)⟩

/-- C4: writing a key that does not exist in the store does not create it —
`acquire_key_lock` fails on the missing key first, so the write returns `-1`,
the transaction is aborted, and the store (and everything else in the state)
is unchanged; the lazy-creation branch of `tx_write` is unreachable. -/
theorem C4_write_missing_key_fails :
    get_key c4_s.store "B" = none ∧
    tx_write c4_s c4_tx "B" "x" = some (-1, c4_s, { c4_tx with state := .aborted }) := by
  decide

/-- C8 counterexample: an active transaction that writes the same key twice
before committing leaves two uncommitted versions it owns in that key's
chain — the at-most-one-uncommitted-version-per-owner invariant does not
survive a repeated write. -/
theorem C8_counterexample_double_write :
    c8_r1.1 = 0 ∧ c8_r2.1 = 0 ∧
    (get_key c8_r2.2.1.store "A").map
      (fun k => k.versions.countP (fun v => v.commit_ts == 0 && v.tx_owner == 1)) = some 2 := by
  decide

/-- C8 (amended): every successful write prepends exactly one uncommitted
version owned by the writer to that key's chain — the count of such versions
in the chain grows by exactly one and other chains are untouched — so the
at-most-one invariant is preserved by a write precisely when the transaction
had not written that key before. -/
theorem C8_write_prepends_one_uncommitted (s : MvccState) (tx : Transaction)
    (kn v : String) (s' : MvccState) (tx' : Transaction)
    (h : tx.state = .active) (hw : tx_write s tx kn v = some (0, s', tx')) :
    ∃ k0 vs1, get_key s.store kn = some k0 ∧
      (get_key s'.store kn).map Key.versions = some vs1 ∧
      vs1.countP (fun w => w.commit_ts == 0 && w.tx_owner == tx.id) =
        k0.versions.countP (fun w => w.commit_ts == 0 && w.tx_owner == tx.id) + 1 ∧
      (∀ m, m ≠ kn → (get_key s'.store m).map Key.versions = (get_key s.store m).map Key.versions) := by
  obtain ⟨k0, hk0, hkn, hother, -, -⟩ := tx_write_ok s tx kn v s' tx' h hw
  refine ⟨k0, _, hk0, hkn, ?_, hother⟩
  rw [List.countP_cons]
  simp

theorem C8_write_prepends_one_uncommitted_witness :
    ∃ k0 vs1, get_key c8_s0.store "A" = some k0 ∧
      (get_key c8_r1.2.1.store "A").map Key.versions = some vs1 ∧
      vs1.countP (fun w => w.commit_ts == 0 && w.tx_owner == c8_tx0.id) =
        k0.versions.countP (fun w => w.commit_ts == 0 && w.tx_owner == c8_tx0.id) + 1 ∧
      (∀ m, m ≠ "A" →
        (get_key c8_r1.2.1.store m).map Key.versions = (get_key c8_s0.store m).map Key.versions) :=
  C8_write_prepends_one_uncommitted c8_s0 c8_tx0 "A" "x" c8_r1.2.1 c8_r1.2.2 rfl (by decide)

/-- C5: for an active transaction whose commit-time lock phase succeeds, the
commit fails exactly on the spec's read-write-conflict condition (some key of
the read set exists and its newest version is younger than the snapshot);
and every failing commit — lock acquisition or validation — leaves the
transaction `Aborted`, every chain unchanged (no version stamped), and none
of the transaction's locks held. -/
theorem C5_commit_validation_and_failure (s : MvccState) (tx : Transaction)
    (h : tx.state = .active) (ht : tx.id ≠ 0) :
    (∀ s1, commit_lock_phase s tx.id tx.write_set = .ok s1 →
      ((∃ s' tx', tx_commit s tx = some (-1, s', tx')) ↔ read_write_conflict s tx)) ∧
    (∀ s' tx', tx_commit s tx = some (-1, s', tx') →
      tx'.state = .aborted ∧ chains s'.store = chains s.store ∧
      ∀ k ∈ s'.store, k.lock_owner ≠ tx.id) := by
  have hne : ¬ tx.state ≠ .active := by simp [h]
  constructor
  · intro s1 hok
    have hch : chains s1.store = chains s.store := (commit_lock_phase_ok _ _ _ _ hok).1
    have hcheck : check_read_write_conflicts s1 tx = check_read_write_conflicts s tx :=
      check_rw_congr s1 s tx hch
    constructor
    · rintro ⟨s', tx', he⟩
      unfold tx_commit at he
      rw [if_neg hne, hok] at he
      dsimp only at he
      by_cases hrw : check_read_write_conflicts s1 tx = true
      · exact (check_rw_iff s tx).mp (hcheck ▸ hrw)
      · rw [if_neg hrw] at he
        simp at he
    · intro hconf
      unfold tx_commit
      rw [if_neg hne, hok]
      dsimp only
      have hrw : check_read_write_conflicts s1 tx = true := by
        rw [hcheck]
        exact (check_rw_iff s tx).mpr hconf
      rw [if_pos hrw]
      exact ⟨_, _, rfl⟩
  · intro s' tx' he
    unfold tx_commit at he
    rw [if_neg hne] at he
    cases hl : commit_lock_phase s tx.id tx.write_set with
    | stuck => rw [hl] at he; simp at he
    | failed s1 =>
      rw [hl] at he
      dsimp only at he
      simp only [Option.some.injEq, Prod.mk.injEq] at he
      obtain ⟨-, hs, htx⟩ := he
      subst hs
      subst htx
      refine ⟨rfl, ?_, ?_⟩
      · rw [chains_release]
        exact (commit_lock_phase_failed _ _ _ _ hl).1
      · exact release_no_lock _ _ ht
    | ok s1 =>
      rw [hl] at he
      dsimp only at he
      by_cases hrw : check_read_write_conflicts s1 tx = true
      · rw [if_pos hrw] at he
        simp only [Option.some.injEq, Prod.mk.injEq] at he
        obtain ⟨-, hs, htx⟩ := he
        subst hs
        subst htx
        refine ⟨rfl, ?_, ?_⟩
        · rw [chains_release]
          exact (commit_lock_phase_ok _ _ _ _ hl).1
        · exact release_no_lock _ _ ht
      · rw [if_neg hrw] at he
        simp at he

theorem C5_commit_validation_witness :
    ∃ s' tx', tx_commit c5_s c5_tx = some (-1, s', tx') :=
  ((C5_commit_validation_and_failure c5_s c5_tx rfl (by decide)).1 c5_s rfl).mpr
    ⟨"A", by decide, _, rfl, _, _, rfl, by decide⟩

/-- C6: `tx_abort` rewrites every chain to its filtered form, removing
exactly the uncommitted versions owned by the aborting transaction (its lock,
if held, is cleared): afterwards no chain contains an uncommitted version of
the transaction, and a chain made of the transaction's own pending versions
on top of untouched older versions is restored exactly to those older
versions, in order. -/
theorem C6_abort_restores_chains (s : MvccState) (tx : Transaction) :
    (tx_abort s tx).1.store = s.store.map (fun k =>
      { name := k.name,
        versions := k.versions.filter (fun v => !(v.commit_ts == 0 && v.tx_owner == tx.id)),
        lock_owner := if k.lock_owner = tx.id then 0 else k.lock_owner }) ∧
    (∀ k ∈ (tx_abort s tx).1.store, ∀ v ∈ k.versions,
      ¬(v.commit_ts = 0 ∧ v.tx_owner = tx.id)) ∧
    (∀ k ∈ s.store, ∀ own old, k.versions = own ++ old →
      (∀ v ∈ own, v.commit_ts = 0 ∧ v.tx_owner = tx.id) →
      (∀ v ∈ old, ¬(v.commit_ts = 0 ∧ v.tx_owner = tx.id)) →
      ∃ k1 ∈ (tx_abort s tx).1.store, k1.name = k.name ∧ k1.versions = old) := by
  have hstore : (tx_abort s tx).1.store = s.store.map (fun k =>
      { name := k.name,
        versions := k.versions.filter (fun v => !(v.commit_ts == 0 && v.tx_owner == tx.id)),
        lock_owner := if k.lock_owner = tx.id then 0 else k.lock_owner }) := by
    show ((s.store.map _).map _) = _
    rw [List.map_map]
    congr 1
    funext k
    dsimp only [Function.comp]
    split <;> rfl
  have hfilter : ∀ (vs : List Version) (v : Version),
      v ∈ vs.filter (fun w => !(w.commit_ts == 0 && w.tx_owner == tx.id)) →
      ¬(v.commit_ts = 0 ∧ v.tx_owner = tx.id) := by
    intro vs v hv hc
    have hp := List.of_mem_filter hv
    simp [hc.1, hc.2] at hp
  refine ⟨hstore, ?_, ?_⟩
  · intro k hk v hv
    rw [hstore] at hk
    obtain ⟨k0, -, rfl⟩ := List.mem_map.mp hk
    exact hfilter k0.versions v hv
  · intro k hk own old hdec hown hold
    refine ⟨{ name := k.name,
              versions := k.versions.filter (fun v => !(v.commit_ts == 0 && v.tx_owner == tx.id)),
              lock_owner := if k.lock_owner = tx.id then 0 else k.lock_owner },
            by rw [hstore]; exact List.mem_map_of_mem _ hk, rfl, ?_⟩
    dsimp only
    rw [hdec, List.filter_append]
    have h1 : own.filter (fun v => !(v.commit_ts == 0 && v.tx_owner == tx.id)) = [] := by
      rw [List.filter_eq_nil_iff]
      intro v hv
      simp [(hown v hv).1, (hown v hv).2]
    have h2 : old.filter (fun v => !(v.commit_ts == 0 && v.tx_owner == tx.id)) = old := by
      rw [List.filter_eq_self]
      intro v hv
      have hnv := hold v hv
      by_cases hc : v.commit_ts = 0
      · by_cases ho : v.tx_owner = tx.id
        · exact absurd ⟨hc, ho⟩ hnv
        · simp [hc, ho]
      · simp [hc]
    rw [h1, h2, List.nil_append]

theorem C6_abort_restores_chains_witness :
    ∃ k1 ∈ (tx_abort c6_s c6_tx).1.store, k1.name = c6_key.name ∧ k1.versions = c6_old :=
  (C6_abort_restores_chains c6_s c6_tx).2.2 c6_key (by decide) c6_own c6_old rfl
    (by decide) (by decide)

/-- C9: a transaction whose write set is already at `MAX_READSET` capacity
can still write successfully — the version is prepended to the key's chain
while the write set stays unchanged (the key is not recorded) — and a
subsequent successful commit still publishes that untracked version, because
stamping scans every chain for versions owned by the transaction instead of
iterating the write set: afterwards the written value heads the key's chain
with a positive commit timestamp and cleared ownership, and no chain retains
any uncommitted version of the transaction. -/
theorem C9_untracked_write_still_published (s : MvccState) (tx : Transaction)
    (kn v : String) (s' s'' : MvccState) (tx' tx'' : Transaction)
    (h : tx.state = .active) (hfull : tx.write_set.length = MAX_READSET)
    (hw : tx_write s tx kn v = some (0, s', tx'))
    (hc : tx_commit s' tx' = some (0, s'', tx'')) :
    tx'.write_set = tx.write_set ∧
    (∃ k0, get_key s.store kn = some k0 ∧
      (get_key s'.store kn).map Key.versions =
        some ({ commit_ts := 0, tx_owner := tx.id, value := v } :: k0.versions)) ∧
    (∃ ts rest, (get_key s''.store kn).map Key.versions =
        some ({ commit_ts := ts, tx_owner := 0, value := v } :: rest) ∧ 0 < ts) ∧
    (∀ k ∈ s''.store, ∀ w ∈ k.versions, ¬(w.commit_ts = 0 ∧ w.tx_owner = tx.id)) := by
  obtain ⟨k0, hk0, hkn, hother, hgts, htx'⟩ := tx_write_ok s tx kn v s' tx' h hw
  have htxws : tx'.write_set = tx.write_set := by
    rw [htx']
    unfold record_write_buffer
    rw [if_neg (by rw [hfull]; exact Nat.lt_irrefl _)]
  have htxst : tx'.state = .active := by
    rw [htx']
    unfold record_write_buffer
    split <;> exact h
  have htxid : tx'.id = tx.id := by
    rw [htx']
    unfold record_write_buffer
    split <;> rfl
  obtain ⟨s1, hclp, hcheck, hs'', htx''⟩ := tx_commit_ok s' tx' s'' tx'' htxst hc
  have hch1 : chains s1.store = chains s'.store := (commit_lock_phase_ok _ _ _ _ hclp).1
  have hs1kn := chains_get_key _ _ hch1 kn
  rw [hkn] at hs1kn
  cases hgk1 : get_key s1.store kn with
  | none => rw [hgk1] at hs1kn; simp at hs1kn
  | some k1 =>
    rw [hgk1] at hs1kn
    simp only [Option.map_some', Option.some.injEq] at hs1kn
    obtain ⟨g0, hstamp⟩ := get_key_stampStore tx'.id s1.store s1.global_commit_ts kn k1 hgk1
    refine ⟨htxws, ⟨k0, hk0, hkn⟩,
      ⟨g0 + 1, (stampChain tx'.id (g0 + 1) k0.versions).1, ?_, Nat.succ_pos g0⟩, ?_⟩
    · rw [hs'', get_key_release_versions, hstamp]
      simp only [Option.map_some', Option.some.injEq]
      rw [hs1kn, stampChain, if_pos ⟨rfl, htxid.symm⟩]
    · intro k hk w hw2
      rw [hs''] at hk
      unfold release_locks at hk
      simp only [List.mem_map] at hk
      obtain ⟨kst, hkst, rfl⟩ := hk
      have hw3 : w ∈ kst.versions := by
        by_cases hb : kst.lock_owner = tx'.id
        · rw [if_pos hb] at hw2; exact hw2
        · rw [if_neg hb] at hw2; exact hw2
      have hnw := stampStore_no_owned tx'.id s1.store s1.global_commit_ts kst hkst w hw3
      rw [htxid] at hnw
      exact hnw

theorem C9_untracked_write_still_published_witness :
    c9_w.2.2.write_set = c9_tx.write_set ∧
    (∃ k0, get_key c9_s.store "B" = some k0 ∧
      (get_key c9_w.2.1.store "B").map Key.versions =
        some ({ commit_ts := 0, tx_owner := c9_tx.id, value := "y" } :: k0.versions)) ∧
    (∃ ts rest, (get_key c9_c.2.1.store "B").map Key.versions =
        some ({ commit_ts := ts, tx_owner := 0, value := "y" } :: rest) ∧ 0 < ts) ∧
    (∀ k ∈ c9_c.2.1.store, ∀ w ∈ k.versions, ¬(w.commit_ts = 0 ∧ w.tx_owner = c9_tx.id)) :=
  C9_untracked_write_still_published c9_s c9_tx "B" "y" c9_w.2.1 c9_c.2.1 c9_w.2.2 c9_c.2.2
    rfl (by decide) (by decide) (by decide)

/-- C10: reading a key that does not exist in the store still appends the key
name to an active transaction's read set (when it is not full), so the
not-found read is validated at commit time: if the key has since gained a
newest version younger than the snapshot, validation reports the conflict and
any commit whose lock phase succeeds fails, aborting the transaction. -/
theorem C10_notfound_read_still_validated (s : MvccState) (tx : Transaction) (kn : String)
    (h : tx.state = .active) (hroom : tx.read_set.length < MAX_READSET)
    (hmiss : get_key s.store kn = none) (hshort : strncpy_take kn (MAX_KEYNAME - 1) = kn) :
    (tx_read s tx kn).read_set = tx.read_set ++ [kn] ∧
    ∀ s2, (∃ k2 v2 rest2, get_key s2.store kn = some k2 ∧ k2.versions = v2 :: rest2 ∧
            tx.start_ts < v2.commit_ts) →
      check_read_write_conflicts s2 (tx_read s tx kn) = true ∧
      (∀ s3, commit_lock_phase s2 (tx_read s tx kn).id (tx_read s tx kn).write_set = .ok s3 →
        ∃ s' tx', tx_commit s2 (tx_read s tx kn) = some (-1, s', tx') ∧ tx'.state = .aborted) := by
  have hread : tx_read s tx kn = { tx with read_set := tx.read_set ++ [kn] } := by
    unfold tx_read record_read
    rw [if_pos h, if_pos hroom, hshort]
  constructor
  · rw [hread]
  · rintro s2 ⟨k2, v2, rest2, hk2, hv2, hlt⟩
    have hconf : read_write_conflict s2 (tx_read s tx kn) := by
      refine ⟨kn, ?_, k2, hk2, v2, rest2, hv2, ?_⟩
      · rw [hread]
        simp
      · rw [hread]
        exact hlt
    have hcheck : check_read_write_conflicts s2 (tx_read s tx kn) = true :=
      (check_rw_iff _ _).mpr hconf
    refine ⟨hcheck, ?_⟩
    intro s3 hok
    have hact : ¬ (tx_read s tx kn).state ≠ .active := by rw [hread]; simp [h]
    unfold tx_commit
    rw [if_neg hact, hok]
    dsimp only
    have hrw : check_read_write_conflicts s3 (tx_read s tx kn) = true := by
      rw [check_rw_congr s3 s2 _ (commit_lock_phase_ok _ _ _ _ hok).1]
      exact hcheck
    rw [if_pos hrw]
    exact ⟨_, _, rfl, rfl⟩

theorem C10_notfound_read_still_validated_witness :
    (tx_read c10_s c10_tx "B").read_set = c10_tx.read_set ++ ["B"] ∧
    ∀ s2, (∃ k2 v2 rest2, get_key s2.store "B" = some k2 ∧ k2.versions = v2 :: rest2 ∧
            c10_tx.start_ts < v2.commit_ts) →
      check_read_write_conflicts s2 (tx_read c10_s c10_tx "B") = true ∧
      (∀ s3, commit_lock_phase s2 (tx_read c10_s c10_tx "B").id
          (tx_read c10_s c10_tx "B").write_set = .ok s3 →
        ∃ s' tx', tx_commit s2 (tx_read c10_s c10_tx "B") = some (-1, s', tx') ∧
          tx'.state = .aborted) :=
  C10_notfound_read_still_validated c10_s c10_tx "B" rfl (by decide) (by decide) (by decide)

/-! Correctness of the depth-first deadlock detector. -/

lemma unvisitedCount_le (V : Finset Nat) : unvisitedCount V ≤ MAX_TRANSACTIONS + 1 := by
  unfold unvisitedCount
  calc ((Finset.range (MAX_TRANSACTIONS + 1)).filter (fun x => x ∉ V)).card
      ≤ (Finset.range (MAX_TRANSACTIONS + 1)).card := Finset.card_filter_le _ _
    _ = MAX_TRANSACTIONS + 1 := Finset.card_range _

lemma unvisitedCount_insert (node : Nat) (V : Finset Nat)
    (h8 : node ≤ MAX_TRANSACTIONS) (hv : node ∉ V) :
    unvisitedCount (insert node V) + 1 = unvisitedCount V := by
  unfold unvisitedCount
  have hmem : node ∈ (Finset.range (MAX_TRANSACTIONS + 1)).filter (fun x => x ∉ V) :=
    Finset.mem_filter.mpr ⟨Finset.mem_range.mpr (by omega), by simpa using hv⟩
  have heq : (Finset.range (MAX_TRANSACTIONS + 1)).filter (fun x => x ∉ insert node V) =
      ((Finset.range (MAX_TRANSACTIONS + 1)).filter (fun x => x ∉ V)).erase node := by
    ext x
    simp only [Finset.mem_filter, Finset.mem_erase, Finset.mem_insert, not_or]
    tauto
  rw [heq, Finset.card_erase_add_one hmem]

lemma unvisitedCount_mono (V W : Finset Nat) (h : V ⊆ W) :
    unvisitedCount W ≤ unvisitedCount V := by
  unfold unvisitedCount
  apply Finset.card_le_card
  intro x hx
  simp only [Finset.mem_filter] at hx ⊢
  exact ⟨hx.1, fun hxV => hx.2 (h hxV)⟩

/-- Pushing a freshly visited node onto the stack does not change the set of
fully processed nodes. -/
lemma blacks_insert_push (node : Nat) (V : Finset Nat) (stk : List Nat) (hv : node ∉ V) :
    Blacks (insert node V) (node :: stk) = Blacks V stk := by
  funext x
  unfold Blacks
  apply propext
  constructor
  · rintro ⟨hx1, hx2⟩
    rcases Finset.mem_insert.mp hx1 with rfl | hx1'
    · exact absurd (List.mem_cons_self _ _) hx2
    · exact ⟨hx1', fun hs => hx2 (List.mem_cons_of_mem _ hs)⟩
  · rintro ⟨hx1, hx2⟩
    refine ⟨Finset.mem_insert_of_mem hx1, ?_⟩
    intro hs
    rcases List.mem_cons.mp hs with rfl | hs'
    · exact hv hx1
    · exact hx2 hs'

/-- A closed set absorbs everything reachable from it. -/
lemma wClosed_rtg (g : Nat → Nat → Bool) (B : Nat → Prop) (hB : wClosed g B) :
    ∀ a b, B a → Relation.ReflTransGen (wEdge g) a b → B b := by
  intro a b ha hab
  induction hab with
  | refl => exact ha
  | tail _ hyz ih => exact hB _ _ ih hyz

/-- From a node of a closed, cycle-free set no cycle is reachable. -/
lemma safe_no_cycle_from (g : Nat → Nat → Bool) (B : Nat → Prop) (r : Nat)
    (hc : wClosed g B) (ha : wAcyclicIn g B) (hr : B r) :
    ¬ ∃ c, Relation.ReflTransGen (wEdge g) r c ∧ Relation.TransGen (wEdge g) c c := by
  rintro ⟨c, hrc, hcc⟩
  exact ha c (wClosed_rtg g B hc r c hr hrc) hcc

/-- Soundness of the inner scan, given soundness of `dfsCycle` at the same
fuel: a `true` answer exhibits a cycle reachable from the scanned node.  The
stack invariant: every stack entry reaches the scanned node. -/
lemma dfsScan_sound_of (g : Nat → Nat → Bool) (fuel : Nat)
    (hC : ∀ node V stk V₂, dfsCycle g fuel node V stk = (true, V₂) →
      (∀ x ∈ stk, Relation.ReflTransGen (wEdge g) x node) →
      ∃ c, Relation.ReflTransGen (wEdge g) node c ∧ Relation.TransGen (wEdge g) c c) :
    ∀ l node V stk V₂, dfsScan g fuel node V stk l = (true, V₂) →
      (∀ x ∈ stk, Relation.ReflTransGen (wEdge g) x node) →
      ∃ c, Relation.ReflTransGen (wEdge g) node c ∧ Relation.TransGen (wEdge g) c c := by
  intro l
  induction l with
  | nil =>
    intro node V stk V₂ hrun _
    rw [dfsScan] at hrun
    simp at hrun
  | cons j rest ih =>
    intro node V stk V₂ hrun hstk
    rw [dfsScan] at hrun
    by_cases he : g node j
    · rw [if_pos he] at hrun
      by_cases hv : j ∈ V
      · by_cases hs : j ∈ stk
        · exact ⟨j, Relation.ReflTransGen.single he, Relation.TransGen.tail' (hstk j hs) he⟩
        · rw [if_pos hv, if_neg hs] at hrun
          exact ih node V stk V₂ hrun hstk
      · rw [if_neg hv] at hrun
        cases hd : dfsCycle g fuel j V stk with
        | mk b V1 =>
          rw [hd] at hrun
          cases b with
          | false =>
            dsimp only at hrun
            exact ih node V1 stk V₂ hrun hstk
          | true =>
            obtain ⟨c, hrc, hcyc⟩ := hC j V stk V1 hd
              (fun x hx => Relation.ReflTransGen.tail (hstk x hx) he)
            exact ⟨c, Relation.ReflTransGen.head he hrc, hcyc⟩
    · rw [if_neg he] at hrun
      exact ih node V stk V₂ hrun hstk

/-- Soundness of `dfs_cycle`: a `true` answer exhibits a cycle reachable from
the start node. -/
lemma dfsCycle_sound (g : Nat → Nat → Bool) : ∀ fuel node V stk V₂,
    dfsCycle g fuel node V stk = (true, V₂) →
    (∀ x ∈ stk, Relation.ReflTransGen (wEdge g) x node) →
    ∃ c, Relation.ReflTransGen (wEdge g) node c ∧ Relation.TransGen (wEdge g) c c := by
  intro fuel
  induction fuel with
  | zero =>
    intro node V stk V₂ hrun _
    rw [dfsCycle] at hrun
    simp at hrun
  | succ f ihf =>
    intro node V stk V₂ hrun hstk
    rw [dfsCycle] at hrun
    refine dfsScan_sound_of g f ihf _ node (insert node V) (node :: stk) V₂ hrun ?_
    intro x hx
    rcases List.mem_cons.mp hx with rfl | hx'
    · exact Relation.ReflTransGen.refl
    · exact hstk x hx'

/-- Completeness of the inner scan, given completeness of `dfsCycle` at the
same fuel: a `false` answer grows the visited set, keeps the black set closed
and cycle-free, and accounts for every scanned successor. -/
lemma dfsScan_complete_of (g : Nat → Nat → Bool) (fuel : Nat)
    (hC : ∀ node V stk V₂, dfsCycle g fuel node V stk = (false, V₂) →
      unvisitedCount V ≤ fuel → 1 ≤ node → node ≤ MAX_TRANSACTIONS → node ∉ V →
      (∀ x ∈ stk, x ∈ V) → wClosed g (Blacks V stk) → wAcyclicIn g (Blacks V stk) →
      V ⊆ V₂ ∧ node ∈ V₂ ∧ wClosed g (Blacks V₂ stk) ∧ wAcyclicIn g (Blacks V₂ stk)) :
    ∀ l node V stk V₂,
      dfsScan g fuel node V stk l = (false, V₂) →
      unvisitedCount V ≤ fuel →
      (∀ x ∈ l, 1 ≤ x ∧ x ≤ MAX_TRANSACTIONS) →
      (∀ x ∈ stk, x ∈ V) →
      wClosed g (Blacks V stk) → wAcyclicIn g (Blacks V stk) →
      V ⊆ V₂ ∧ wClosed g (Blacks V₂ stk) ∧ wAcyclicIn g (Blacks V₂ stk) ∧
        (∀ j ∈ l, g node j = true → j ∈ V₂ ∧ j ∉ stk) := by
  intro l
  induction l with
  | nil =>
    intro node V stk V₂ hrun _ _ _ hcl hac
    rw [dfsScan] at hrun
    simp only [Prod.mk.injEq] at hrun
    obtain ⟨-, rfl⟩ := hrun
    exact ⟨Finset.Subset.refl V, hcl, hac, by simp⟩
  | cons j rest ih =>
    intro node V stk V₂ hrun hf hl hstkV hcl hac
    rw [dfsScan] at hrun
    by_cases he : g node j
    · rw [if_pos he] at hrun
      by_cases hv : j ∈ V
      · by_cases hs : j ∈ stk
        · rw [if_pos hv, if_pos hs] at hrun
          simp at hrun
        · rw [if_pos hv, if_neg hs] at hrun
          obtain ⟨h1, h2, h3, h4⟩ := ih node V stk V₂ hrun hf
            (fun x hx => hl x (List.mem_cons_of_mem _ hx)) hstkV hcl hac
          refine ⟨h1, h2, h3, ?_⟩
          intro j' hj' hej'
          rcases List.mem_cons.mp hj' with rfl | hj''
          · exact ⟨h1 hv, hs⟩
          · exact h4 j' hj'' hej'
      · rw [if_neg hv] at hrun
        cases hd : dfsCycle g fuel j V stk with
        | mk b V1 =>
          rw [hd] at hrun
          cases b with
          | true => dsimp only at hrun; simp at hrun
          | false =>
            dsimp only at hrun
            obtain ⟨hj1, hj8⟩ := hl j (List.mem_cons_self _ _)
            obtain ⟨hV1, hjV1, hcl1, hac1⟩ := hC j V stk V1 hd hf hj1 hj8 hv hstkV hcl hac
            obtain ⟨h1, h2, h3, h4⟩ := ih node V1 stk V₂ hrun
              (le_trans (unvisitedCount_mono V V1 hV1) hf)
              (fun x hx => hl x (List.mem_cons_of_mem _ hx))
              (fun x hx => hV1 (hstkV x hx)) hcl1 hac1
            refine ⟨Finset.Subset.trans hV1 h1, h2, h3, ?_⟩
            intro j' hj' hej'
            rcases List.mem_cons.mp hj' with rfl | hj''
            · exact ⟨h1 hjV1, fun hs => hv (hstkV _ hs)⟩
            · exact h4 j' hj'' hej'
    · rw [if_neg he] at hrun
      obtain ⟨h1, h2, h3, h4⟩ := ih node V stk V₂ hrun hf
        (fun x hx => hl x (List.mem_cons_of_mem _ hx)) hstkV hcl hac
      refine ⟨h1, h2, h3, ?_⟩
      intro j' hj' hej'
      rcases List.mem_cons.mp hj' with rfl | hj''
      · exact absurd hej' he
      · exact h4 j' hj'' hej'

/-- Completeness of `dfs_cycle`: when it answers `false` on an unvisited node
(with sufficient fuel), the node joins the visited set and the set of fully
processed nodes stays closed under wait-for edges and free of cycles.  Needs
every wait-for edge to point into `1 .. MAX_TRANSACTIONS` (the scan only
examines those successors), which `add_wait_edge` guarantees. -/
lemma dfsCycle_complete (g : Nat → Nat → Bool)
    (hgt : ∀ a b, g a b = true → 1 ≤ b ∧ b ≤ MAX_TRANSACTIONS) :
    ∀ fuel node V stk V₂, dfsCycle g fuel node V stk = (false, V₂) →
      unvisitedCount V ≤ fuel → 1 ≤ node → node ≤ MAX_TRANSACTIONS → node ∉ V →
      (∀ x ∈ stk, x ∈ V) → wClosed g (Blacks V stk) → wAcyclicIn g (Blacks V stk) →
      V ⊆ V₂ ∧ node ∈ V₂ ∧ wClosed g (Blacks V₂ stk) ∧ wAcyclicIn g (Blacks V₂ stk) := by
  intro fuel
  induction fuel with
  | zero =>
    intro node V stk V₂ _ hf h1 h8 hv _ _ _
    exfalso
    have hpos : 0 < unvisitedCount V := by
      apply Finset.card_pos.mpr
      exact ⟨node, Finset.mem_filter.mpr ⟨Finset.mem_range.mpr (by omega), by simpa using hv⟩⟩
    omega
  | succ f ihf =>
    intro node V stk V₂ hrun hf h1 h8 hv hstkV hcl hac
    rw [dfsCycle] at hrun
    have huc : unvisitedCount (insert node V) ≤ f := by
      have := unvisitedCount_insert node V h8 hv
      omega
    have hstkV' : ∀ x ∈ node :: stk, x ∈ insert node V := by
      intro x hx
      rcases List.mem_cons.mp hx with rfl | hx'
      · exact Finset.mem_insert_self _ _
      · exact Finset.mem_insert_of_mem (hstkV x hx')
    have hBeq := blacks_insert_push node V stk hv
    obtain ⟨h1', h2', h3', h4'⟩ := dfsScan_complete_of g f ihf
      (List.range' 1 MAX_TRANSACTIONS) node (insert node V) (node :: stk) V₂ hrun huc
      (fun x hx => by rw [List.mem_range'_1] at hx; omega)
      hstkV' (by rw [hBeq]; exact hcl) (by rw [hBeq]; exact hac)
    refine ⟨fun x hx => h1' (Finset.mem_insert_of_mem hx),
            h1' (Finset.mem_insert_self node V), ?_, ?_⟩
    · intro a b ha hab
      by_cases han : a = node
      · subst han
        obtain ⟨hb1, hb8⟩ := hgt a b hab
        have hb := h4' b (by rw [List.mem_range'_1]; omega) hab
        exact ⟨hb.1, fun hbs => hb.2 (List.mem_cons_of_mem _ hbs)⟩
      · have haBl : Blacks V₂ (node :: stk) a :=
          ⟨ha.1, fun hx => (List.mem_cons.mp hx).elim han ha.2⟩
        have hb := h2' a b haBl hab
        exact ⟨hb.1, fun hbs => hb.2 (List.mem_cons_of_mem _ hbs)⟩
    · intro c hc hcyc
      by_cases hcn : c = node
      · subst hcn
        obtain ⟨b, hnb, hbn⟩ := Relation.TransGen.head'_iff.mp hcyc
        obtain ⟨hb1, hb8⟩ := hgt c b hnb
        have hbB := h4' b (by rw [List.mem_range'_1]; omega) hnb
        have hbBl : Blacks V₂ (c :: stk) b := ⟨hbB.1, hbB.2⟩
        have hnodeB := wClosed_rtg g _ h2' b c hbBl hbn
        exact hnodeB.2 (List.mem_cons_self _ _)
      · have hcBl : Blacks V₂ (node :: stk) c :=
          ⟨hc.1, fun hx => (List.mem_cons.mp hx).elim hcn hc.2⟩
        exact h3' c hcBl hcyc

/-- Soundness of the detector's outer loop. -/
lemma detectScan_sound (g : Nat → Nat → Bool) (reg : Nat → Bool) :
    ∀ l V, detectScan g reg V l = true →
      ∃ r c, reg r = true ∧ Relation.ReflTransGen (wEdge g) r c ∧
        Relation.TransGen (wEdge g) c c := by
  intro l
  induction l with
  | nil => intro V hrun; rw [detectScan] at hrun; simp at hrun
  | cons i rest ih =>
    intro V hrun
    rw [detectScan] at hrun
    by_cases hcond : reg i = true ∧ i ∉ V
    · rw [if_pos hcond] at hrun
      cases hd : dfsCycle g (MAX_TRANSACTIONS + 1) i V [] with
      | mk b V1 =>
        rw [hd] at hrun
        cases b with
        | false =>
          dsimp only at hrun
          exact ih V1 hrun
        | true =>
          obtain ⟨c, hic, hcyc⟩ :=
            dfsCycle_sound g (MAX_TRANSACTIONS + 1) i V [] V1 hd (by simp)
          exact ⟨i, c, hcond.1, hic, hcyc⟩
    · rw [if_neg hcond] at hrun
      exact ih V hrun

/-- Completeness of the detector's outer loop: if it answers `false`, no
registered node of the scanned range reaches a cycle. -/
lemma detectScan_complete (g : Nat → Nat → Bool) (reg : Nat → Bool)
    (hgt : ∀ a b, g a b = true → 1 ≤ b ∧ b ≤ MAX_TRANSACTIONS) :
    ∀ l V, detectScan g reg V l = false →
      (∀ x ∈ l, 1 ≤ x ∧ x ≤ MAX_TRANSACTIONS) →
      wClosed g (Blacks V []) → wAcyclicIn g (Blacks V []) →
      ∀ r ∈ l, reg r = true →
        ¬ ∃ c, Relation.ReflTransGen (wEdge g) r c ∧ Relation.TransGen (wEdge g) c c := by
  intro l
  induction l with
  | nil => intro V _ _ _ _ r hr; simp at hr
  | cons i rest ih =>
    intro V hrun hl hcl hac r hr hreg
    rw [detectScan] at hrun
    by_cases hcond : reg i = true ∧ i ∉ V
    · rw [if_pos hcond] at hrun
      cases hd : dfsCycle g (MAX_TRANSACTIONS + 1) i V [] with
      | mk b V1 =>
        rw [hd] at hrun
        cases b with
        | true => dsimp only at hrun; simp at hrun
        | false =>
          dsimp only at hrun
          obtain ⟨hi1, hi8⟩ := hl i (List.mem_cons_self _ _)
          obtain ⟨hV1, hiV1, hcl1, hac1⟩ :=
            dfsCycle_complete g hgt (MAX_TRANSACTIONS + 1) i V [] V1 hd
              (unvisitedCount_le V) hi1 hi8 hcond.2 (by simp) hcl hac
          rcases List.mem_cons.mp hr with rfl | hr'
          · exact safe_no_cycle_from g _ r hcl1 hac1 ⟨hiV1, by simp⟩
          · exact ih V1 hrun (fun x hx => hl x (List.mem_cons_of_mem _ hx)) hcl1 hac1 r hr' hreg
    · rw [if_neg hcond] at hrun
      rcases List.mem_cons.mp hr with rfl | hr'
      · have hiV : r ∈ V := by
          by_contra hniV
          exact hcond ⟨hreg, hniV⟩
        exact safe_no_cycle_from g _ r hcl hac ⟨hiV, by simp⟩
      · exact ih V hrun (fun x hx => hl x (List.mem_cons_of_mem _ hx)) hcl hac r hr' hreg

/-- C7: under the wait-for-graph well-formedness that `add_wait_edge`
enforces (every edge joins nodes in `1 .. MAX_TRANSACTIONS`), the deadlock
detector returns `true` exactly when the wait-for graph contains a cycle
reachable from some registered transaction node. -/
theorem C7_detect_deadlock_iff_cycle (g : Nat → Nat → Bool) (reg : Nat → Bool)
    (hg : ∀ a b, g a b = true →
      (1 ≤ a ∧ a ≤ MAX_TRANSACTIONS) ∧ (1 ≤ b ∧ b ≤ MAX_TRANSACTIONS)) :
    detect_deadlock g reg = true ↔
      ∃ r c, reg r = true ∧ Relation.ReflTransGen (wEdge g) r c ∧
        Relation.TransGen (wEdge g) c c := by
  constructor
  · intro h
    exact detectScan_sound g reg (List.range' 1 MAX_TRANSACTIONS) ∅ h
  · rintro ⟨r, c, hreg, hrc, hcyc⟩
    by_contra hfalse
    have hdet : detectScan g reg ∅ (List.range' 1 MAX_TRANSACTIONS) = false := by
      cases hdd : detect_deadlock g reg
      · exact hdd
      · exact absurd hdd hfalse
    have hrb : 1 ≤ r ∧ r ≤ MAX_TRANSACTIONS := by
      rcases Relation.ReflTransGen.cases_head hrc with heq | ⟨b, hrbe, -⟩
      · obtain ⟨b, hcb, -⟩ := Relation.TransGen.head'_iff.mp hcyc
        rw [heq]
        exact (hg _ _ hcb).1
      · exact (hg _ _ hrbe).1
    have hempty_cl : wClosed g (Blacks (∅ : Finset Nat) []) := by
      intro a b ha _
      exact absurd ha.1 (by simp)
    have hempty_ac : wAcyclicIn g (Blacks (∅ : Finset Nat) []) := by
      intro a ha _
      exact absurd ha.1 (by simp)
    exact detectScan_complete g reg (fun a b hab => (hg a b hab).2)
      (List.range' 1 MAX_TRANSACTIONS) ∅ hdet
      (fun x hx => by rw [List.mem_range'_1] at hx; omega)
      hempty_cl hempty_ac r (by rw [List.mem_range'_1]; omega) hreg
      ⟨c, hrc, hcyc⟩

theorem C7_detect_deadlock_iff_cycle_witness :
    detect_deadlock c7_g c7_reg = true ↔
      ∃ r c, c7_reg r = true ∧ Relation.ReflTransGen (wEdge c7_g) r c ∧
        Relation.TransGen (wEdge c7_g) c c :=
  C7_detect_deadlock_iff_cycle c7_g c7_reg (by
    intro a b hab
    simp only [c7_g, Bool.or_eq_true, Bool.and_eq_true, beq_iff_eq] at hab
    unfold MAX_TRANSACTIONS
    rcases hab with ⟨ha, hb⟩ | ⟨ha, hb⟩ <;> subst ha <;> subst hb <;> omega)
